import Mathlib

/-!
Verification of the text-verb-extractor program: a shallow embedding of
`src/text_extractor.py`, `src/verb_analyzer.py` and `src/utils.py`,
together with theorems checking the specification's claims against the
embedded code.  External library calls (NLTK tokenizers and tagger, the
OCR engine, the image transforms) are taken as parameters; everything the
repository itself computes is embedded concretely.
-/

namespace TextVerbExtractor

/-! ### Python string primitives -/

/-- The ASCII whitespace characters recognised by Python's `str.split()`,
`str.strip()` and the regex class `\s`. -/
def pyIsSpace (c : Char) : Bool :=
  c == ' ' || c == '\t' || c == '\n' || c == '\r' || c == '\x0b' || c == '\x0c'

/-- Python `str.lower` (ASCII range, which covers every string the
program compares after lowering). -/
def pyLower (s : String) : String := ⟨s.data.map Char.toLower⟩

/-- Python `str.endswith`. -/
def pyEndsWith (s post : String) : Bool := post.data.isSuffixOf s.data

/-- Python `str.startswith`. -/
def pyStartsWith (s p : String) : Bool := p.data.isPrefixOf s.data

/-- Python `str.strip()` on a character list: whitespace dropped from
both ends. -/
def pyStripChars (l : List Char) : List Char :=
  ((l.dropWhile pyIsSpace).reverse.dropWhile pyIsSpace).reverse

/-- Python `str.strip()`. -/
def pyStrip (s : String) : String := ⟨pyStripChars s.data⟩

/-- Helper for `pySplit`: `cur` holds the reversed characters of the
word being read. -/
def pySplitAux (cur : List Char) : List Char → List (List Char)
  | [] => if cur.isEmpty then [] else [cur.reverse]
  | c :: rest =>
    if pyIsSpace c then
      if cur.isEmpty then pySplitAux [] rest
      else cur.reverse :: pySplitAux [] rest
    else pySplitAux (c :: cur) rest

/-- Python `str.split()` with no argument: the maximal runs of
non-whitespace characters, in order; empty runs never appear. -/
def pySplit (l : List Char) : List (List Char) := pySplitAux [] l

/-- Python `' '.join(parts)` on character lists. -/
def pyJoin : List (List Char) → List Char
  | [] => []
  | [w] => w
  | w :: ws => w ++ ' ' :: pyJoin ws

/-- Helper for `collapseWs`: `prevSpace` records whether the previous
character belonged to a whitespace run already replaced by a space. -/
def collapseWsAux (prevSpace : Bool) : List Char → List Char
  | [] => []
  | c :: rest =>
    if pyIsSpace c then
      if prevSpace then collapseWsAux true rest
      else ' ' :: collapseWsAux true rest
    else c :: collapseWsAux false rest

/-- The substitution `re.sub(r'\s+', ' ', text)`: every maximal run of
whitespace characters becomes a single space. -/
def collapseWs (l : List Char) : List Char := collapseWsAux false l

/-- The regex class `\w` (ASCII range): letters, digits, underscore. -/
def isWordChar (c : Char) : Bool := c.isAlphanum || c == '_'

/-- The punctuation kept by `clean_text`'s character filter. -/
def keptPunctuation : List Char :=
  ['.', ',', '!', '?', '-', ':', ';', '\'', '"', '(', ')']

/-- A character surviving `re.sub(r'[^\w\s.,!?\-:;\'"()]', '', text)`. -/
def allowedChar (c : Char) : Bool :=
  isWordChar c || pyIsSpace c || keptPunctuation.contains c

/-! ### `TextExtractor.clean_text`

The source performs, in order: `' '.join(text.split())`, the removal of
characters outside the allow-list, the collapse of whitespace runs, and a
final `strip()`. -/

/-- `TextExtractor.clean_text` on a character list. -/
def cleanChars (l : List Char) : List Char :=
  let joined := pyJoin (pySplit l)
  let filtered := joined.filter allowedChar
  let collapsed := collapseWs filtered
  pyStripChars collapsed

/-- `TextExtractor.clean_text`. -/
def clean_text (s : String) : String := ⟨cleanChars s.data⟩

/-! ### `VerbAnalyzer.get_verb_categories` -/

/-- The fixed set of linking-verb word forms in `get_verb_categories`. -/
def linkingVerbSet : List String :=
  ["is", "am", "are", "was", "were", "be", "being", "been",
   "seem", "appear", "become", "grow", "turn", "look",
   "feel", "smell", "sound", "taste"]

/-- The fixed set of helping-verb word forms in `get_verb_categories`. -/
def helpingVerbSet : List String :=
  ["have", "has", "had", "do", "does", "did", "will",
   "would", "shall", "should", "may", "might", "must",
   "can", "could"]

/-- The five category lists returned by `get_verb_categories`. -/
structure VerbCategories where
  action_verbs : List String
  linking_verbs : List String
  helping_verbs : List String
  irregular_verbs : List String
  regular_verbs : List String
deriving DecidableEq

/-- Names for the five branches of the `if`/`elif` chain in
`get_verb_categories`. -/
inductive VCat
  | action | linking | helping | irregular | regular
deriving DecidableEq

/-- The branch of `get_verb_categories`'s `if`/`elif` chain taken for one
verb: lowercased membership tests first, then the suffix tests on the
original string, and `irregular` as the final `else`. -/
def categoryOf (verb : String) : VCat :=
  let verb_lower := pyLower verb
  if verb_lower ∈ linkingVerbSet then .linking
  else if verb_lower ∈ helpingVerbSet then .helping
  else if pyEndsWith verb "ing" then .action
  else if pyEndsWith verb "ed" && decide (verb.length > 2) then .regular
  else .irregular

/-- One iteration of the loop body of `get_verb_categories`: the verb is
appended to the list its branch selects. -/
def appendToCategory (cats : VerbCategories) (verb : String) : VerbCategories :=
  match categoryOf verb with
  | .linking => { cats with linking_verbs := cats.linking_verbs ++ [verb] }
  | .helping => { cats with helping_verbs := cats.helping_verbs ++ [verb] }
  | .action => { cats with action_verbs := cats.action_verbs ++ [verb] }
  | .regular => { cats with regular_verbs := cats.regular_verbs ++ [verb] }
  | .irregular => { cats with irregular_verbs := cats.irregular_verbs ++ [verb] }

/-- `VerbAnalyzer.get_verb_categories`. -/
def get_verb_categories (verbs : List String) : VerbCategories :=
  verbs.foldl appendToCategory ⟨[], [], [], [], []⟩

/-! ### Characterisation of `get_verb_categories` -/

/-- Closed form of the loop of `get_verb_categories`: each of the five
lists extends the corresponding list of `init` by exactly the verbs
whose branch selects that list, in input order. -/
theorem foldl_appendToCategory (verbs : List String) (init : VerbCategories) :
    verbs.foldl appendToCategory init =
      ⟨init.action_verbs ++ verbs.filter (fun v => decide (categoryOf v = VCat.action)),
       init.linking_verbs ++ verbs.filter (fun v => decide (categoryOf v = VCat.linking)),
       init.helping_verbs ++ verbs.filter (fun v => decide (categoryOf v = VCat.helping)),
       init.irregular_verbs ++ verbs.filter (fun v => decide (categoryOf v = VCat.irregular)),
       init.regular_verbs ++ verbs.filter (fun v => decide (categoryOf v = VCat.regular))⟩ := by
  induction verbs generalizing init with
  | nil => simp
  | cons v vs ih =>
    rw [List.foldl_cons, ih]
    cases h : categoryOf v <;>
      simp [appendToCategory, h, List.filter_cons, List.append_assoc]

/-- `get_verb_categories` in closed form. -/
theorem get_verb_categories_eq (verbs : List String) :
    get_verb_categories verbs =
      ⟨verbs.filter (fun v => decide (categoryOf v = VCat.action)),
       verbs.filter (fun v => decide (categoryOf v = VCat.linking)),
       verbs.filter (fun v => decide (categoryOf v = VCat.helping)),
       verbs.filter (fun v => decide (categoryOf v = VCat.irregular)),
       verbs.filter (fun v => decide (categoryOf v = VCat.regular))⟩ := by
  simpa [get_verb_categories] using foldl_appendToCategory verbs ⟨[], [], [], [], []⟩

/-- The five filters by category partition the length of the input. -/
theorem sum_category_filter_lengths (verbs : List String) :
    (verbs.filter (fun v => decide (categoryOf v = VCat.action))).length
      + (verbs.filter (fun v => decide (categoryOf v = VCat.linking))).length
      + (verbs.filter (fun v => decide (categoryOf v = VCat.helping))).length
      + (verbs.filter (fun v => decide (categoryOf v = VCat.irregular))).length
      + (verbs.filter (fun v => decide (categoryOf v = VCat.regular))).length
      = verbs.length := by
  induction verbs with
  | nil => simp
  | cons v vs ih =>
    cases h : categoryOf v <;> simp [List.filter_cons, h] <;> omega

/-- A verb of a different category never occurs in a category's filter. -/
theorem count_category_filter_ne (verbs : List String) (v : String) (c : VCat)
    (h : categoryOf v ≠ c) :
    (verbs.filter (fun x => decide (categoryOf x = c))).count v = 0 := by
  rw [List.count_eq_zero]
  intro hmem
  rw [List.mem_filter] at hmem
  exact h (of_decide_eq_true hmem.2)

/-- If the verb's branch matches the category, the category's filter
keeps every occurrence of the verb. -/
theorem count_category_filter_eq (verbs : List String) (v : String) (c : VCat)
    (h : categoryOf v = c) :
    (verbs.filter (fun x => decide (categoryOf x = c))).count v = verbs.count v :=
  List.count_filter (by simp [h])

/-- The per-verb occurrence counts of the five category filters sum to
the occurrence count in the input list. -/
theorem count_categories_sum (verbs : List String) (v : String) :
    (verbs.filter (fun x => decide (categoryOf x = VCat.action))).count v
      + (verbs.filter (fun x => decide (categoryOf x = VCat.linking))).count v
      + (verbs.filter (fun x => decide (categoryOf x = VCat.helping))).count v
      + (verbs.filter (fun x => decide (categoryOf x = VCat.irregular))).count v
      + (verbs.filter (fun x => decide (categoryOf x = VCat.regular))).count v
      = verbs.count v := by
  induction verbs with
  | nil => simp
  | cons w ws ih =>
    rcases eq_or_ne v w with hw | hw
    · subst hw
      cases hc : categoryOf v <;>
        · simp only [List.filter_cons, hc]
          simp [List.count_cons]
          omega
    · cases hc : categoryOf w <;>
        · simp only [List.filter_cons, hc]
          simp [List.count_cons, hw]
          omega

/-- Two suffixes of the same list with equal lengths are equal. -/
theorem suffix_eq_of_length {α : Type} {s t l : List α}
    (hs : s <:+ l) (ht : t <:+ l) (h : s.length = t.length) : s = t := by
  obtain ⟨u, rfl⟩ := hs
  obtain ⟨w, hw⟩ := ht
  have hlen : w.length = u.length := by
    have := congrArg List.length hw
    simp only [List.length_append] at this
    omega
  have hdrop : t = (w ++ t).drop w.length := (List.drop_left w t).symm
  rw [hw, hlen, List.drop_left] at hdrop
  exact hdrop.symm

/-- Of two suffixes of the same list, the shorter is a suffix of the
longer. -/
theorem suffix_suffix_of_le {α : Type} {s t l : List α}
    (hs : s <:+ l) (ht : t <:+ l) (h : s.length ≤ t.length) : s <:+ t := by
  obtain ⟨u, rfl⟩ := hs
  obtain ⟨w, hw⟩ := ht
  have hlen : w.length ≤ u.length := by
    have := congrArg List.length hw
    simp only [List.length_append] at this
    omega
  have ht' : t = (u ++ s).drop w.length := by
    rw [← hw]; exact (List.drop_left w t).symm
  have key : ((u ++ s).drop w.length).drop (u.length - w.length) = s := by
    rw [List.drop_drop]
    have h2 : w.length + (u.length - w.length) = u.length := by omega
    rw [h2, List.drop_left]
  have hsuf := List.drop_suffix (u.length - w.length) ((u ++ s).drop w.length)
  rw [key] at hsuf
  rwa [← ht'] at hsuf

/-! ### Claims about `get_verb_categories` -/

/-- C3: `get_verb_categories` places each input verb in exactly one of
the five category lists: each list is exactly the verbs whose branch
selects it, the per-verb occurrence counts of the five lists sum to the
input's occurrence count (the lists are disjoint as occurrences), the
concatenated length of the five lists equals the input length, and a
verb matching no lookup set and no suffix rule lands in
`irregular_verbs`. -/
theorem claim_C3_categories_partition (verbs : List String) :
    ((get_verb_categories verbs).action_verbs
        = verbs.filter (fun v => decide (categoryOf v = VCat.action))
      ∧ (get_verb_categories verbs).linking_verbs
        = verbs.filter (fun v => decide (categoryOf v = VCat.linking))
      ∧ (get_verb_categories verbs).helping_verbs
        = verbs.filter (fun v => decide (categoryOf v = VCat.helping))
      ∧ (get_verb_categories verbs).irregular_verbs
        = verbs.filter (fun v => decide (categoryOf v = VCat.irregular))
      ∧ (get_verb_categories verbs).regular_verbs
        = verbs.filter (fun v => decide (categoryOf v = VCat.regular)))
    ∧ (∀ v : String,
        (get_verb_categories verbs).action_verbs.count v
          + (get_verb_categories verbs).linking_verbs.count v
          + (get_verb_categories verbs).helping_verbs.count v
          + (get_verb_categories verbs).irregular_verbs.count v
          + (get_verb_categories verbs).regular_verbs.count v
          = verbs.count v)
    ∧ ((get_verb_categories verbs).action_verbs.length
          + (get_verb_categories verbs).linking_verbs.length
          + (get_verb_categories verbs).helping_verbs.length
          + (get_verb_categories verbs).irregular_verbs.length
          + (get_verb_categories verbs).regular_verbs.length
          = verbs.length)
    ∧ (∀ v ∈ verbs, pyLower v ∉ linkingVerbSet → pyLower v ∉ helpingVerbSet →
        pyEndsWith v "ing" = false →
        (pyEndsWith v "ed" && decide (v.length > 2)) = false →
        v ∈ (get_verb_categories verbs).irregular_verbs) := by
  refine ⟨?_, ?_, ?_, ?_⟩
  · rw [get_verb_categories_eq]
    exact ⟨rfl, rfl, rfl, rfl, rfl⟩
  · intro v
    rw [get_verb_categories_eq]
    exact count_categories_sum verbs v
  · rw [get_verb_categories_eq]
    exact sum_category_filter_lengths verbs
  · intro v hv h1 h2 h3 h4
    have hcat : categoryOf v = VCat.irregular := by
      simp [categoryOf, h1, h2, h3, h4]
    rw [get_verb_categories_eq]
    simp only [List.mem_filter]
    exact ⟨hv, by simp [hcat]⟩

/-- Witness for C3: concrete instance at the verb list of the spec's
example sentence; in particular the default branch at "dreams". -/
theorem claim_C3_categories_partition_witness :
    "dreams" ∈ (get_verb_categories ["is", "sleeping", "dreams", "chasing"]).irregular_verbs :=
  (claim_C3_categories_partition ["is", "sleeping", "dreams", "chasing"]).2.2.2
    "dreams" (by decide) (by decide) (by decide) (by decide) (by decide)

/-- C4 fails as stated: "being" ends in "ing" but is not assigned to the
action category, because the linking-set membership test precedes the
suffix test. -/
theorem claim_C4_counterexample :
    pyEndsWith "being" "ing" = true
      ∧ "being" ∉ (get_verb_categories ["being"]).action_verbs
      ∧ "being" ∈ (get_verb_categories ["being"]).linking_verbs := by
  refine ⟨by decide, ?_, ?_⟩ <;> decide

/-- C4 amended: the branches apply in the source's `if`/`elif` order —
lowercased linking-set membership first, then lowercased helping-set
membership, then the "ing" suffix, then the "ed" suffix with length
greater than 2. -/
theorem claim_C4_branch_assignment (verbs : List String) (v : String) (hv : v ∈ verbs) :
    (pyLower v ∈ linkingVerbSet → v ∈ (get_verb_categories verbs).linking_verbs)
    ∧ (pyLower v ∉ linkingVerbSet → pyLower v ∈ helpingVerbSet →
        v ∈ (get_verb_categories verbs).helping_verbs)
    ∧ (pyLower v ∉ linkingVerbSet → pyLower v ∉ helpingVerbSet →
        pyEndsWith v "ing" = true → v ∈ (get_verb_categories verbs).action_verbs)
    ∧ (pyLower v ∉ linkingVerbSet → pyLower v ∉ helpingVerbSet →
        pyEndsWith v "ing" = false → pyEndsWith v "ed" = true → v.length > 2 →
        v ∈ (get_verb_categories verbs).regular_verbs) := by
  rw [get_verb_categories_eq]
  refine ⟨fun h1 => ?_, fun h1 h2 => ?_, fun h1 h2 h3 => ?_, fun h1 h2 h3 h4 h5 => ?_⟩
  · exact List.mem_filter.mpr ⟨hv, by simp [categoryOf, h1]⟩
  · exact List.mem_filter.mpr ⟨hv, by simp [categoryOf, h1, h2]⟩
  · exact List.mem_filter.mpr ⟨hv, by simp [categoryOf, h1, h2, h3]⟩
  · exact List.mem_filter.mpr ⟨hv, by simp [categoryOf, h1, h2, h3, h4, h5]⟩

/-- Witness for C4 (amended): each of the four branches at a concrete
verb. -/
theorem claim_C4_branch_assignment_witness :
    "is" ∈ (get_verb_categories ["is", "can", "sleeping", "walked"]).linking_verbs
      ∧ "can" ∈ (get_verb_categories ["is", "can", "sleeping", "walked"]).helping_verbs
      ∧ "sleeping" ∈ (get_verb_categories ["is", "can", "sleeping", "walked"]).action_verbs
      ∧ "walked" ∈ (get_verb_categories ["is", "can", "sleeping", "walked"]).regular_verbs :=
  ⟨(claim_C4_branch_assignment _ "is" (by decide)).1 (by decide),
   (claim_C4_branch_assignment _ "can" (by decide)).2.1 (by decide) (by decide),
   (claim_C4_branch_assignment _ "sleeping" (by decide)).2.2.1
     (by decide) (by decide) (by decide),
   (claim_C4_branch_assignment _ "walked" (by decide)).2.2.2
     (by decide) (by decide) (by decide) (by decide) (by decide)⟩

/-- C10: membership tests use the lowercased verb while the suffix tests
use the original string, so a verb outside both sets ending in the
uppercase "ING" goes to `irregular_verbs`, not `action_verbs`. -/
theorem claim_C10_case_sensitive_suffix (v : String)
    (h1 : pyLower v ∉ linkingVerbSet) (h2 : pyLower v ∉ helpingVerbSet)
    (h3 : pyEndsWith v "ING" = true) :
    v ∈ (get_verb_categories [v]).irregular_verbs
      ∧ v ∉ (get_verb_categories [v]).action_verbs := by
  have hING : "ING".data <:+ v.data := by
    simpa [pyEndsWith] using h3
  have hIng : pyEndsWith v "ing" = false := by
    rw [Bool.eq_false_iff]
    intro hc
    have hing : "ing".data <:+ v.data := by simpa [pyEndsWith] using hc
    have := suffix_eq_of_length hing hING (by decide)
    exact absurd this (by decide)
  have hEd : pyEndsWith v "ed" = false := by
    rw [Bool.eq_false_iff]
    intro hc
    have hed : "ed".data <:+ v.data := by simpa [pyEndsWith] using hc
    have := suffix_suffix_of_le hed hING (by decide)
    exact absurd this (by decide)
  have hcat : categoryOf v = VCat.irregular := by
    simp [categoryOf, h1, h2, hIng, hEd]
  rw [get_verb_categories_eq]
  constructor
  · simp [hcat]
  · simp [hcat]

/-- Witness for C10 at the verb "SLEEPING". -/
theorem claim_C10_case_sensitive_suffix_witness :
    "SLEEPING" ∈ (get_verb_categories ["SLEEPING"]).irregular_verbs
      ∧ "SLEEPING" ∉ (get_verb_categories ["SLEEPING"]).action_verbs :=
  claim_C10_case_sensitive_suffix "SLEEPING" (by decide) (by decide) (by decide)

/-! ### `VerbAnalyzer.extract_verbs`

The NLTK sentence tokenizer, word tokenizer and part-of-speech tagger
are external library calls; they enter the embedding as parameters.
Everything else follows the source line by line. -/

/-- The test `tag.startswith('V')` applied to a universal-tagset tag. -/
def isVerbTag (tag : String) : Bool := pyStartsWith tag "V"

/-- The verb extraction applied to a tagged word list:
`[word.lower() for word, tag in tagged if tag.startswith('V')]`. -/
def verbsOf (tagged : List (String × String)) : List String :=
  (tagged.filter (fun wt => isVerbTag wt.2)).map (fun wt => pyLower wt.1)

/-- The keys of a Python `collections.Counter` built from `l`, in first
insertion order. -/
def counterKeys (l : List String) : List String :=
  l.foldl (fun acc x => if x ∈ acc then acc else acc ++ [x]) []

/-- A Python `collections.Counter` over `l` as an association list in
key-insertion order. -/
def counterOf (l : List String) : List (String × Nat) :=
  (counterKeys l).map (fun w => (w, l.count w))

/-- `Counter.most_common(n)`: entries sorted by descending count, ties
kept in insertion order (a stable sort). -/
def most_common (counts : List (String × Nat)) (n : Nat) : List (String × Nat) :=
  (counts.mergeSort (fun a b => decide (b.2 ≤ a.2))).take n

/-- One entry of the `sentence_analysis` list of `extract_verbs`. -/
structure SentenceInfo where
  sentence_number : Nat
  sentence : String
  verbs : List String
  verb_count : Nat

/-- The dictionary returned by `VerbAnalyzer.extract_verbs`. -/
structure VerbAnalysis where
  text : String
  sentences : List String
  total_words : Nat
  total_sentences : Nat
  verbs : List String
  verb_counts : List (String × Nat)
  total_unique_verbs : Nat
  total_verb_instances : Nat
  sentence_analysis : List SentenceInfo
  sentences_with_verbs : Nat
  sentences_without_verbs : Nat
  most_common_verbs : List (String × Nat)

section VerbAnalyzerModel

variable (sent_tokenize word_tokenize : String → List String)
variable (pos_tag : List String → List (String × String))

/-- `VerbAnalyzer.extract_verbs`, parametrised by the external NLTK
tokenizers and tagger.  The body is total: the source's `try`/`except`
re-raises library errors unchanged and adds no behaviour of its own. -/
def extract_verbs (text : String) : VerbAnalysis :=
  let sentences := sent_tokenize text
  let words := word_tokenize text
  let tagged_words := pos_tag words
  let verbs := verbsOf tagged_words
  let verb_counts := counterOf verbs
  let sentence_analysis := (List.enumFrom 1 sentences).map (fun p =>
    let sent_words := word_tokenize p.2
    let sent_tagged := pos_tag sent_words
    let sent_verbs := verbsOf sent_tagged
    ⟨p.1, p.2, sent_verbs, sent_verbs.length⟩)
  let unique_verbs := verb_counts.map Prod.fst
  { text := text
    sentences := sentences
    total_words := words.length
    total_sentences := sentences.length
    verbs := unique_verbs
    verb_counts := verb_counts
    total_unique_verbs := unique_verbs.length
    total_verb_instances := (verb_counts.map Prod.snd).sum
    sentence_analysis := sentence_analysis
    sentences_with_verbs :=
      (sentence_analysis.filter (fun s => decide (s.verb_count > 0))).length
    sentences_without_verbs :=
      (sentence_analysis.filter (fun s => decide (s.verb_count = 0))).length
    most_common_verbs := most_common verb_counts 10 }

end VerbAnalyzerModel

/-! ### Counter lemmas -/

theorem counterKeys_go_mem (l : List String) :
    ∀ (acc : List String) (x : String),
      x ∈ l.foldl (fun acc x => if x ∈ acc then acc else acc ++ [x]) acc ↔
        x ∈ acc ∨ x ∈ l := by
  induction l with
  | nil => simp
  | cons y ys ih =>
    intro acc x
    simp only [List.foldl_cons]
    by_cases hy : y ∈ acc
    · rw [if_pos hy, ih]
      constructor
      · rintro (h | h)
        · exact Or.inl h
        · exact Or.inr (List.mem_cons_of_mem y h)
      · rintro (h | h)
        · exact Or.inl h
        · rcases List.mem_cons.mp h with rfl | h
          · exact Or.inl hy
          · exact Or.inr h
    · rw [if_neg hy, ih]
      simp only [List.mem_append, List.mem_singleton, List.mem_cons]
      tauto

theorem counterKeys_go_nodup (l : List String) :
    ∀ (acc : List String), acc.Nodup →
      (l.foldl (fun acc x => if x ∈ acc then acc else acc ++ [x]) acc).Nodup := by
  induction l with
  | nil => intro acc h; simpa using h
  | cons y ys ih =>
    intro acc hacc
    simp only [List.foldl_cons]
    by_cases hy : y ∈ acc
    · rw [if_pos hy]; exact ih acc hacc
    · rw [if_neg hy]
      refine ih _ ?_
      simp [List.nodup_append, hacc, hy]

theorem counterKeys_mem (l : List String) (x : String) :
    x ∈ counterKeys l ↔ x ∈ l := by
  rw [counterKeys, counterKeys_go_mem]
  simp

theorem counterKeys_nodup (l : List String) : (counterKeys l).Nodup :=
  counterKeys_go_nodup l [] List.nodup_nil

/-- The keys of the counter are a permutation of `l.dedup`. -/
theorem counterKeys_perm_dedup (l : List String) :
    List.Perm (counterKeys l) l.dedup := by
  rw [List.perm_ext_iff_of_nodup (counterKeys_nodup l) (List.nodup_dedup l)]
  intro a
  rw [counterKeys_mem, List.mem_dedup]

/-- The counter's values sum to the length of the counted list. -/
theorem counterOf_values_sum (l : List String) :
    ((counterOf l).map Prod.snd).sum = l.length := by
  rw [counterOf, List.map_map]
  have hperm : List.Perm ((counterKeys l).map (fun w => l.count w))
      (l.dedup.map (fun w => l.count w)) := (counterKeys_perm_dedup l).map _
  have : ((counterKeys l).map (fun w => l.count w)).sum
      = (l.dedup.map (fun w => l.count w)).sum := hperm.sum_eq
  simpa [Function.comp] using this.trans (List.sum_map_count_dedup_eq_length l)

/-! ### Helpers for the `extract_verbs` claims -/

/-- Mapping a function of the element over `enumFrom` ignores the
indices. -/
theorem map_enumFrom_eq_map {α β : Type} (f : α → β) :
    ∀ (n : Nat) (l : List α), (List.enumFrom n l).map (fun p => f p.2) = l.map f := by
  intro n l
  induction l generalizing n with
  | nil => rfl
  | cons a as ih => simp only [List.enumFrom, List.map_cons, ih]

/-- Every element listed by `enumFrom` comes from the underlying list. -/
theorem enumFrom_snd_mem {α : Type} :
    ∀ (n : Nat) (l : List α) (p : Nat × α), p ∈ List.enumFrom n l → p.2 ∈ l := by
  intro n l
  induction l generalizing n with
  | nil => intro p h; simp [List.enumFrom] at h
  | cons a as ih =>
    intro p h
    rcases List.mem_cons.mp h with rfl | h
    · exact List.mem_cons_self a as
    · exact List.mem_cons_of_mem a (ih (n + 1) p h)

/-- A list homomorphism sends `[]` to `[]`. -/
theorem tag_nil_of_hom (pt : List String → List (String × String))
    (hp : ∀ a b, pt (a ++ b) = pt a ++ pt b) : pt [] = [] := by
  have h := hp [] []
  simp only [List.append_nil] at h
  have hlen := congrArg List.length h
  rw [List.length_append] at hlen
  have hz : (pt []).length = 0 := by omega
  exact List.eq_nil_of_length_eq_zero hz

theorem verbsOf_append (a b : List (String × String)) :
    verbsOf (a ++ b) = verbsOf a ++ verbsOf b := by
  simp [verbsOf]

/-- If no tagged word carries a verb tag, no verbs are extracted. -/
theorem verbsOf_eq_nil (tagged : List (String × String))
    (h : ∀ p ∈ tagged, isVerbTag p.2 = false) : verbsOf tagged = [] := by
  have hf : tagged.filter (fun wt => isVerbTag wt.2) = [] :=
    List.filter_eq_nil_iff.mpr (fun a ha => by simp [h a ha])
  simp [verbsOf, hf]

/-- For a tagger that distributes over append, the verbs extracted from
the concatenation of the sentences' token lists are counted by the
per-sentence extractions. -/
theorem verbsOf_flatMap_length (word_tokenize : String → List String)
    (pos_tag : List String → List (String × String))
    (hp : ∀ a b, pos_tag (a ++ b) = pos_tag a ++ pos_tag b) :
    ∀ (sl : List String),
      (verbsOf (pos_tag (sl.flatMap word_tokenize))).length
        = (sl.map (fun s => (verbsOf (pos_tag (word_tokenize s))).length)).sum := by
  intro sl
  induction sl with
  | nil =>
    simp [tag_nil_of_hom pos_tag hp, verbsOf]
  | cons s rest ih =>
    rw [List.flatMap_cons, hp, verbsOf_append, List.length_append, ih]
    simp

/-- The two sentence filters of `extract_verbs` split the sentence
list's length. -/
theorem filter_pos_add_filter_zero (sa : List SentenceInfo) :
    (sa.filter (fun s => decide (s.verb_count > 0))).length
      + (sa.filter (fun s => decide (s.verb_count = 0))).length = sa.length := by
  induction sa with
  | nil => rfl
  | cons s rest ih =>
    by_cases h : s.verb_count = 0
    · simp only [List.filter_cons, h]
      simp only [List.length_cons, ← ih]
      simp
      omega
    · have h' : s.verb_count > 0 := Nat.pos_of_ne_zero h
      simp only [List.filter_cons, h, h']
      simp only [List.length_cons, ← ih]
      simp [h, h']
      omega

/-! ### Claims about `extract_verbs` -/

/-- C1: the total verb-instance count (from tagging the whole text's
token list) equals the sum of the per-sentence verb counts (from
tagging each sentence's token list), provided the external word
tokenizer distributes over the sentence split and the external tagger
distributes over token-list concatenation. -/
theorem claim_C1_total_instances_eq_sentence_sum
    (sent_tokenize word_tokenize : String → List String)
    (pos_tag : List String → List (String × String)) (text : String)
    (hw : word_tokenize text = (sent_tokenize text).flatMap word_tokenize)
    (hp : ∀ a b, pos_tag (a ++ b) = pos_tag a ++ pos_tag b) :
    (extract_verbs sent_tokenize word_tokenize pos_tag text).total_verb_instances
      = ((extract_verbs sent_tokenize word_tokenize pos_tag text).sentence_analysis.map
          (fun s => s.verb_count)).sum := by
  simp only [extract_verbs]
  rw [counterOf_values_sum, hw, List.map_map]
  rw [verbsOf_flatMap_length word_tokenize pos_tag hp (sent_tokenize text)]
  rw [← map_enumFrom_eq_map (fun s => (verbsOf (pos_tag (word_tokenize s))).length) 1]
  rfl

/-- Witness for C1 at a compositional tokenizer/tagger instance. -/
theorem claim_C1_total_instances_eq_sentence_sum_witness :
    (extract_verbs (fun t => [t]) (fun t => [t])
        (fun l => l.map (fun w => (w, "VERB"))) "run").total_verb_instances
      = ((extract_verbs (fun t => [t]) (fun t => [t])
          (fun l => l.map (fun w => (w, "VERB"))) "run").sentence_analysis.map
            (fun s => s.verb_count)).sum :=
  claim_C1_total_instances_eq_sentence_sum (fun t => [t]) (fun t => [t])
    (fun l => l.map (fun w => (w, "VERB"))) "run" rfl
    (fun a b => List.map_append (fun w => (w, "VERB")) a b)

/-- C2: `sentences_with_verbs + sentences_without_verbs =
total_sentences`, for every text and every behaviour of the external
tokenizers and tagger. -/
theorem claim_C2_sentence_counts_split
    (sent_tokenize word_tokenize : String → List String)
    (pos_tag : List String → List (String × String)) (text : String) :
    (extract_verbs sent_tokenize word_tokenize pos_tag text).sentences_with_verbs
        + (extract_verbs sent_tokenize word_tokenize pos_tag text).sentences_without_verbs
      = (extract_verbs sent_tokenize word_tokenize pos_tag text).total_sentences := by
  simp only [extract_verbs]
  rw [filter_pos_add_filter_zero]
  simp

/-- C8: when tagging produces no verb-tagged token — in particular for
an empty text — `extract_verbs` reports zero sentences with verbs and
zero verb instances (its body is total, so nothing is raised), and
`get_verb_categories` of the resulting empty verb list has all five
category lists empty. -/
theorem claim_C8_empty_analysis
    (sent_tokenize word_tokenize : String → List String)
    (pos_tag : List String → List (String × String)) (text : String)
    (h1 : ∀ p ∈ pos_tag (word_tokenize text), isVerbTag p.2 = false)
    (h2 : ∀ s ∈ sent_tokenize text, ∀ p ∈ pos_tag (word_tokenize s), isVerbTag p.2 = false) :
    (extract_verbs sent_tokenize word_tokenize pos_tag text).sentences_with_verbs = 0
      ∧ (extract_verbs sent_tokenize word_tokenize pos_tag text).total_verb_instances = 0
      ∧ get_verb_categories
          ((extract_verbs sent_tokenize word_tokenize pos_tag text).verbs)
        = ⟨[], [], [], [], []⟩ := by
  have hverbs : verbsOf (pos_tag (word_tokenize text)) = [] := verbsOf_eq_nil _ h1
  refine ⟨?_, ?_, ?_⟩
  · simp only [extract_verbs]
    rw [List.length_eq_zero]
    apply List.filter_eq_nil_iff.mpr
    intro si hsi
    rcases List.mem_map.mp hsi with ⟨p, hp, rfl⟩
    have hs : p.2 ∈ sent_tokenize text := enumFrom_snd_mem 1 _ p hp
    have : verbsOf (pos_tag (word_tokenize p.2)) = [] := verbsOf_eq_nil _ (h2 p.2 hs)
    simp [this]
  · simp only [extract_verbs]
    rw [counterOf_values_sum, hverbs]
    rfl
  · simp only [extract_verbs]
    rw [hverbs]
    rfl

/-- Witness for C8 at tokenizers returning nothing on the empty text. -/
theorem claim_C8_empty_analysis_witness :
    (extract_verbs (fun _ => []) (fun _ => []) (fun _ => []) "").sentences_with_verbs = 0
      ∧ (extract_verbs (fun _ => []) (fun _ => []) (fun _ => []) "").total_verb_instances = 0
      ∧ get_verb_categories
          ((extract_verbs (fun _ => []) (fun _ => []) (fun _ => []) "").verbs)
        = ⟨[], [], [], [], []⟩ :=
  claim_C8_empty_analysis (fun _ => []) (fun _ => []) (fun _ => []) ""
    (by simp) (by simp)

/-! ### `TextExtractor.extract_text`

The image type, the OpenCV transforms, `cv2.imread`, `PIL.Image.open`
and the OCR call `pytesseract.image_to_string` are external; they enter
as parameters.  `cv2.imread` returns `None` on an unreadable file, which
`preprocess_image` turns into a raised error. -/

/-- One entry of `extraction_results`: the OCR text of a method and the
length of its stripped text. -/
structure MethodResult where
  text : String
  length : Nat
deriving DecidableEq

/-- The extraction-details dictionary returned by `extract_text`. -/
structure ExtractionDetails where
  best_method : String
  all_methods : List (String × MethodResult)
  preprocessed : Bool

section TextExtractorModel

/-- `TextExtractor.preprocess_image`: reads the image, greys it, and
produces the four fixed transforms keyed by method name, in the
insertion order of the source's dictionary. -/
def preprocess_image (Img : Type) (imread : String → Option Img)
    (cvtColorGray simpleThreshold adaptiveThreshold otsuThreshold gaussianBlur : Img → Img)
    (image_path : String) : Except String (List (String × Img)) :=
  match imread image_path with
  | none => .error ("Could not read image from " ++ image_path)
  | some img =>
    let gray := cvtColorGray img
    .ok [("simple_threshold", simpleThreshold gray),
         ("adaptive_threshold", adaptiveThreshold gray),
         ("otsu_threshold", otsuThreshold gray),
         ("gaussian_otsu", otsuThreshold (gaussianBlur gray))]

/-- One step of Python's `max(..., key=...)` over the method names:
the current best is replaced only by a strictly longer entry, so the
first entry of maximal length wins. -/
def bestStep (acc : Option (String × MethodResult)) (x : String × MethodResult) :
    Option (String × MethodResult) :=
  match acc with
  | none => some x
  | some b => if x.2.length > b.2.length then some x else some b

/-- `max(extraction_results.keys(), key=lambda x: ...["length"])`,
returning the full entry; `none` only on the empty list (where Python
raises `ValueError`). -/
def max_by_length (l : List (String × MethodResult)) : Option (String × MethodResult) :=
  l.foldl bestStep none

/-- `TextExtractor.extract_text`. -/
def extract_text (Img : Type) (imread : String → Option Img)
    (cvtColorGray simpleThreshold adaptiveThreshold otsuThreshold gaussianBlur : Img → Img)
    (image_to_string : Img → String) (pilOpen : String → Option Img)
    (image_path : String) (preprocess : Bool) :
    Except String (String × ExtractionDetails) :=
  if preprocess then
    match preprocess_image Img imread cvtColorGray simpleThreshold adaptiveThreshold
        otsuThreshold gaussianBlur image_path with
    | .error e => .error e
    | .ok processed_images =>
      let extraction_results := processed_images.map (fun mi =>
        (mi.1, MethodResult.mk (image_to_string mi.2)
          (pyStrip (image_to_string mi.2)).length))
      match max_by_length extraction_results with
      | none => .error "max() arg is an empty sequence"
      | some best => .ok (best.2.text, ⟨best.1, extraction_results, true⟩)
  else
    match pilOpen image_path with
    | none => .error ("cannot identify image file " ++ image_path)
    | some img =>
      let text := image_to_string img
      .ok (text, ⟨"simple", [("simple", ⟨text, (pyStrip text).length⟩)], false⟩)

end TextExtractorModel

/-- Folding `bestStep` from a seed returns either the seed (then nothing
beats it) or the first entry strictly longer than the seed and at least
as long as everything else, with everything before it strictly shorter. -/
theorem bestStep_foldl_spec :
    ∀ (l : List (String × MethodResult)) (b0 : String × MethodResult),
      ∃ b, l.foldl bestStep (some b0) = some b ∧
        ((b = b0 ∧ ∀ e ∈ l, e.2.length ≤ b0.2.length) ∨
         (∃ pre post, l = pre ++ b :: post ∧ b0.2.length < b.2.length ∧
           (∀ e ∈ pre, e.2.length < b.2.length) ∧
           (∀ e ∈ post, e.2.length ≤ b.2.length))) := by
  intro l
  induction l with
  | nil => exact fun b0 => ⟨b0, rfl, Or.inl ⟨rfl, by simp⟩⟩
  | cons e rest ih =>
    intro b0
    simp only [List.foldl_cons]
    by_cases he : e.2.length > b0.2.length
    · rw [show bestStep (some b0) e = some e from by simp [bestStep, he]]
      obtain ⟨b, hfold, hcase⟩ := ih e
      refine ⟨b, hfold, Or.inr ?_⟩
      rcases hcase with ⟨rfl, hall⟩ | ⟨pre, post, hsplit, hlt, hpre, hpost⟩
      · exact ⟨[], rest, by simp, he, by simp, hall⟩
      · refine ⟨e :: pre, post, by simp [hsplit], lt_trans he hlt, ?_, hpost⟩
        intro x hx
        rcases List.mem_cons.mp hx with rfl | hx
        · exact hlt
        · exact hpre x hx
    · push_neg at he
      rw [show bestStep (some b0) e = some b0 from by
        simp only [bestStep]
        rw [if_neg (by omega)]]
      obtain ⟨b, hfold, hcase⟩ := ih b0
      refine ⟨b, hfold, ?_⟩
      rcases hcase with ⟨rfl, hall⟩ | ⟨pre, post, hsplit, hlt, hpre, hpost⟩
      · refine Or.inl ⟨rfl, ?_⟩
        intro x hx
        rcases List.mem_cons.mp hx with rfl | hx
        · exact he
        · exact hall x hx
      · refine Or.inr ⟨e :: pre, post, by simp [hsplit], hlt, ?_, hpost⟩
        intro x hx
        rcases List.mem_cons.mp hx with rfl | hx
        · exact lt_of_le_of_lt he hlt
        · exact hpre x hx

/-- Python's `max` over a non-empty list, with the "strictly greater
replaces" fold: the result is the first entry of maximal length. -/
theorem max_by_length_spec (x : String × MethodResult) (xs : List (String × MethodResult)) :
    ∃ pre b post, max_by_length (x :: xs) = some b ∧
      x :: xs = pre ++ b :: post ∧
      (∀ e ∈ pre, e.2.length < b.2.length) ∧
      (∀ e ∈ post, e.2.length ≤ b.2.length) := by
  rw [max_by_length, List.foldl_cons]
  obtain ⟨b, hfold, hcase⟩ := bestStep_foldl_spec xs x
  rcases hcase with ⟨rfl, hall⟩ | ⟨pre, post, hsplit, hlt, hpre, hpost⟩
  · exact ⟨[], b, xs, by simpa [bestStep] using hfold, by simp, by simp, hall⟩
  · refine ⟨x :: pre, b, post, by simpa [bestStep] using hfold, by simp [hsplit], ?_, hpost⟩
    intro e he
    rcases List.mem_cons.mp he with rfl | he
    · exact hlt
    · exact hpre e he

/-- C7: with preprocessing, all four fixed transforms are OCR'd and
recorded in the details with their text and stripped length, in the
mapping's insertion order; the returned text is that of an entry of
maximal stripped length, and every entry before it in iteration order
is strictly shorter (so the first-encountered method wins ties). -/
theorem claim_C7_best_method_selection (Img : Type) (imread : String → Option Img)
    (cvtColorGray simpleThreshold adaptiveThreshold otsuThreshold gaussianBlur : Img → Img)
    (image_to_string : Img → String) (pilOpen : String → Option Img)
    (image_path : String) (img : Img) (h : imread image_path = some img) :
    ∃ best_text details,
      extract_text Img imread cvtColorGray simpleThreshold adaptiveThreshold otsuThreshold
          gaussianBlur image_to_string pilOpen image_path true
        = .ok (best_text, details)
      ∧ details.preprocessed = true
      ∧ details.all_methods =
          [("simple_threshold",
            ⟨image_to_string (simpleThreshold (cvtColorGray img)),
             (pyStrip (image_to_string (simpleThreshold (cvtColorGray img)))).length⟩),
           ("adaptive_threshold",
            ⟨image_to_string (adaptiveThreshold (cvtColorGray img)),
             (pyStrip (image_to_string (adaptiveThreshold (cvtColorGray img)))).length⟩),
           ("otsu_threshold",
            ⟨image_to_string (otsuThreshold (cvtColorGray img)),
             (pyStrip (image_to_string (otsuThreshold (cvtColorGray img)))).length⟩),
           ("gaussian_otsu",
            ⟨image_to_string (otsuThreshold (gaussianBlur (cvtColorGray img))),
             (pyStrip (image_to_string (otsuThreshold (gaussianBlur (cvtColorGray img))))).length⟩)]
      ∧ ∃ pre b post,
          details.all_methods = pre ++ b :: post
          ∧ details.best_method = b.1
          ∧ best_text = b.2.text
          ∧ (∀ e ∈ pre, e.2.length < b.2.length)
          ∧ (∀ e ∈ post, e.2.length ≤ b.2.length) := by
  have hpi : preprocess_image Img imread cvtColorGray simpleThreshold adaptiveThreshold
      otsuThreshold gaussianBlur image_path
      = .ok [("simple_threshold", simpleThreshold (cvtColorGray img)),
             ("adaptive_threshold", adaptiveThreshold (cvtColorGray img)),
             ("otsu_threshold", otsuThreshold (cvtColorGray img)),
             ("gaussian_otsu", otsuThreshold (gaussianBlur (cvtColorGray img)))] := by
    rw [preprocess_image, h]
  obtain ⟨pre, b, post, hmax, hsplit, hpre2, hpost⟩ :=
    max_by_length_spec
      ("simple_threshold",
        ⟨image_to_string (simpleThreshold (cvtColorGray img)),
         (pyStrip (image_to_string (simpleThreshold (cvtColorGray img)))).length⟩)
      [("adaptive_threshold",
        ⟨image_to_string (adaptiveThreshold (cvtColorGray img)),
         (pyStrip (image_to_string (adaptiveThreshold (cvtColorGray img)))).length⟩),
       ("otsu_threshold",
        ⟨image_to_string (otsuThreshold (cvtColorGray img)),
         (pyStrip (image_to_string (otsuThreshold (cvtColorGray img)))).length⟩),
       ("gaussian_otsu",
        ⟨image_to_string (otsuThreshold (gaussianBlur (cvtColorGray img))),
         (pyStrip (image_to_string (otsuThreshold (gaussianBlur (cvtColorGray img))))).length⟩)]
  refine ⟨b.2.text, ⟨b.1, _, true⟩, ?_, rfl, rfl, pre, b, post, hsplit, rfl, rfl, hpre2, hpost⟩
  simp only [extract_text, hpi, List.map_cons, List.map_nil, if_true]
  rw [hmax]

/-- Witness for C7 at a one-point image type and constant OCR. -/
theorem claim_C7_best_method_selection_witness :
    ∃ best_text details,
      extract_text Unit (fun _ => some ()) (fun i => i) (fun i => i) (fun i => i)
          (fun i => i) (fun i => i) (fun _ => "text") (fun _ => none) "sample.png" true
        = .ok (best_text, details)
      ∧ details.preprocessed = true
      ∧ details.all_methods =
          [("simple_threshold", ⟨"text", (pyStrip "text").length⟩),
           ("adaptive_threshold", ⟨"text", (pyStrip "text").length⟩),
           ("otsu_threshold", ⟨"text", (pyStrip "text").length⟩),
           ("gaussian_otsu", ⟨"text", (pyStrip "text").length⟩)]
      ∧ ∃ pre b post,
          details.all_methods = pre ++ b :: post
          ∧ details.best_method = b.1
          ∧ best_text = b.2.text
          ∧ (∀ e ∈ pre, e.2.length < b.2.length)
          ∧ (∀ e ∈ post, e.2.length ≤ b.2.length) :=
  claim_C7_best_method_selection Unit (fun _ => some ()) (fun i => i) (fun i => i)
    (fun i => i) (fun i => i) (fun i => i) (fun _ => "text") (fun _ => none)
    "sample.png" () rfl

/-! ### Error handling of the top-level operations (C9)

What a `try`/`except` wrapper contributes is pure control flow, so each
top-level operation is modelled by whether its body is wrapped in the
`except Exception as e: logger.error(...); raise` pattern, read off
from the source: the `TextExtractor` methods and
`VerbAnalyzer.extract_verbs` are wrapped; `get_verb_categories` and the
three functions of `utils.py` (`save_results`, `create_visualization`,
`print_summary`) have no handler at all. -/

/-- The top-level operations of the system. -/
inductive TopOp
  | preprocessImage | extractTextOp | cleanTextOp | extractVerbsOp
  | getVerbCategoriesOp | saveResults | createVisualization | printSummary
deriving DecidableEq

/-- Whether the operation's body is wrapped in a catch-log-reraise
handler in the source. -/
def hasCatchLogReraise : TopOp → Bool
  | .preprocessImage => true
  | .extractTextOp => true
  | .cleanTextOp => false
  | .extractVerbsOp => true
  | .getVerbCategoriesOp => false
  | .saveResults => false
  | .createVisualization => false
  | .printSummary => false

/-- Running an operation whose body produced `body`: the result passed
to the caller, paired with the log lines emitted.  A wrapped operation
logs the error and re-raises it; an unwrapped one propagates it
silently.  No branch replaces or swallows the error. -/
def runOp (op : TopOp) (body : Except String Unit) : Except String Unit × List String :=
  match body with
  | .ok a => (.ok a, [])
  | .error e =>
    (.error e, if hasCatchLogReraise op then ["Error: " ++ e] else [])

/-- C9 fails as stated: `save_results` has no exception handler, so a
failing body propagates its error without any log line. -/
theorem claim_C9_counterexample :
    (runOp TopOp.saveResults (Except.error "disk full")).2 = []
      ∧ ¬ ((runOp TopOp.saveResults (Except.error "disk full")).1 = Except.error "disk full"
            → (runOp TopOp.saveResults (Except.error "disk full")).2 ≠ []) := by
  constructor
  · rfl
  · intro hcontra
    exact hcontra rfl rfl

/-- C9 amended: every top-level operation re-raises the original
condition unchanged — none swallows or substitutes an error — and the
operations that do carry the catch-log-reraise pattern (the
`TextExtractor` methods and `extract_verbs`) also log it; the `utils`
functions and `get_verb_categories` propagate errors without logging. -/
theorem claim_C9_propagation (op : TopOp) (body : Except String Unit) :
    (runOp op body).1 = body
      ∧ (hasCatchLogReraise op = true →
          ∀ e, body = Except.error e → (runOp op body).2 = ["Error: " ++ e]) := by
  constructor
  · cases body <;> rfl
  · intro hop e hbody
    subst hbody
    simp [runOp, hop]

/-- Witness for C9 (amended) at `extract_verbs` with a failing body. -/
theorem claim_C9_propagation_witness :
    (runOp TopOp.extractVerbsOp (Except.error "boom")).1 = Except.error "boom"
      ∧ (runOp TopOp.extractVerbsOp (Except.error "boom")).2 = ["Error: " ++ "boom"] :=
  ⟨(claim_C9_propagation TopOp.extractVerbsOp (Except.error "boom")).1,
   (claim_C9_propagation TopOp.extractVerbsOp (Except.error "boom")).2 rfl "boom" rfl⟩

/-! ### Whitespace-normalisation lemmas for `clean_text` -/

theorem dropWhile_eq_self_of_all {α : Type} (p : α → Bool) (l : List α)
    (h : ∀ c ∈ l, p c = false) : l.dropWhile p = l := by
  cases l with
  | nil => rfl
  | cons c r =>
    rw [List.dropWhile_cons, if_neg]
    simp [h c (List.mem_cons_self c r)]

theorem takeWhile_eq_self_of_all {α : Type} (p : α → Bool) :
    ∀ (l : List α), (∀ c ∈ l, p c = true) → l.takeWhile p = l := by
  intro l
  induction l with
  | nil => intro _; rfl
  | cons c r ih =>
    intro h
    rw [List.takeWhile_cons, if_pos (h c (List.mem_cons_self c r))]
    rw [ih (fun d hd => h d (List.mem_cons_of_mem c hd))]

theorem dropWhile_eq_nil_of_all {α : Type} (p : α → Bool) :
    ∀ (l : List α), (∀ c ∈ l, p c = true) → l.dropWhile p = [] := by
  intro l
  induction l with
  | nil => intro _; rfl
  | cons c r ih =>
    intro h
    rw [List.dropWhile_cons, if_pos (h c (List.mem_cons_self c r))]
    exact ih (fun d hd => h d (List.mem_cons_of_mem c hd))

theorem takeWhile_append_of_all {α : Type} (p : α → Bool) :
    ∀ (a b : List α), (∀ c ∈ a, p c = true) →
      (a ++ b).takeWhile p = a ++ b.takeWhile p := by
  intro a b
  induction a with
  | nil => intro _; rfl
  | cons c r ih =>
    intro h
    rw [List.cons_append, List.takeWhile_cons, if_pos (h c (List.mem_cons_self c r))]
    rw [ih (fun d hd => h d (List.mem_cons_of_mem c hd))]
    rfl

theorem dropWhile_append_of_all {α : Type} (p : α → Bool) :
    ∀ (a b : List α), (∀ c ∈ a, p c = true) →
      (a ++ b).dropWhile p = b.dropWhile p := by
  intro a b
  induction a with
  | nil => intro _; rfl
  | cons c r ih =>
    intro h
    rw [List.cons_append, List.dropWhile_cons, if_pos (h c (List.mem_cons_self c r))]
    exact ih (fun d hd => h d (List.mem_cons_of_mem c hd))

theorem dropWhile_append_of_ne_nil {α : Type} (p : α → Bool) :
    ∀ (a b : List α), a.dropWhile p ≠ [] →
      (a ++ b).dropWhile p = a.dropWhile p ++ b := by
  intro a b
  induction a with
  | nil => intro h; exact absurd rfl h
  | cons c r ih =>
    intro h
    cases hc : p c
    · rw [List.cons_append, List.dropWhile_cons, if_neg (by simp [hc]),
        List.dropWhile_cons, if_neg (by simp [hc])]
      rfl
    · rw [List.cons_append, List.dropWhile_cons, if_pos hc]
      rw [List.dropWhile_cons, if_pos hc] at h ⊢
      exact ih h

theorem dropWhile_ne_nil_of_exists {α : Type} (p : α → Bool) :
    ∀ (l : List α), (∃ c ∈ l, p c = false) → l.dropWhile p ≠ [] := by
  intro l
  induction l with
  | nil => rintro ⟨c, hc, _⟩; simp at hc
  | cons c r ih =>
    rintro ⟨d, hd, hpd⟩
    cases hc : p c
    · rw [List.dropWhile_cons, if_neg (by simp [hc])]
      simp
    · rw [List.dropWhile_cons, if_pos hc]
      rcases List.mem_cons.mp hd with rfl | hd
      · rw [hpd] at hc; cases hc
      · exact ih ⟨d, hd, hpd⟩

theorem dropWhile_head_false {α : Type} (p : α → Bool) :
    ∀ (l : List α) (d : α) (r : List α), l.dropWhile p = d :: r → p d = false := by
  intro l
  induction l with
  | nil => intro d r h; cases h
  | cons c t ih =>
    intro d r h
    cases hc : p c
    · rw [List.dropWhile_cons, if_neg (by simp [hc])] at h
      cases h
      exact hc
    · rw [List.dropWhile_cons, if_pos hc] at h
      exact ih d r h

/-! `collapseWs` equations -/

theorem collapseWsAux_true (r : List Char) :
    collapseWsAux true r = collapseWsAux false (r.dropWhile pyIsSpace) := by
  induction r with
  | nil => rfl
  | cons d r ih =>
    cases hd : pyIsSpace d
    · rw [List.dropWhile_cons, if_neg (by simp [hd])]
      simp [collapseWsAux, hd]
    · rw [List.dropWhile_cons, if_pos hd]
      simpa [collapseWsAux, hd] using ih

theorem collapseWs_cons_space (c : Char) (r : List Char) (h : pyIsSpace c = true) :
    collapseWs (c :: r) = ' ' :: collapseWs (r.dropWhile pyIsSpace) := by
  simp [collapseWs, collapseWsAux, h, collapseWsAux_true]

theorem collapseWs_cons_nonspace (c : Char) (r : List Char) (h : pyIsSpace c = false) :
    collapseWs (c :: r) = c :: collapseWs r := by
  simp [collapseWs, collapseWsAux, h]

theorem collapseWs_append_spacefree (w r : List Char)
    (hw : ∀ c ∈ w, pyIsSpace c = false) :
    collapseWs (w ++ r) = w ++ collapseWs r := by
  induction w with
  | nil => rfl
  | cons c t ih =>
    rw [List.cons_append, collapseWs_cons_nonspace c _ (hw c (List.mem_cons_self c t))]
    rw [ih (fun d hd => hw d (List.mem_cons_of_mem c hd))]
    rfl

/-! `pySplit` equations -/

theorem pySplit_nil : pySplit [] = [] := rfl

theorem pySplit_cons_space (c : Char) (r : List Char) (h : pyIsSpace c = true) :
    pySplit (c :: r) = pySplit r := by
  simp [pySplit, pySplitAux, h]

theorem pySplit_dropWhile (l : List Char) :
    pySplit (l.dropWhile pyIsSpace) = pySplit l := by
  induction l with
  | nil => rfl
  | cons c r ih =>
    cases h : pyIsSpace c
    · rw [List.dropWhile_cons, if_neg (by simp [h])]
    · rw [List.dropWhile_cons, if_pos h, ih, pySplit_cons_space c r h]

theorem pySplitAux_ne (l : List Char) :
    ∀ (cur : List Char), cur ≠ [] →
      pySplitAux cur l
        = (cur.reverse ++ l.takeWhile (fun d => !pyIsSpace d))
            :: pySplit (l.dropWhile (fun d => !pyIsSpace d)) := by
  induction l with
  | nil =>
    intro cur h
    simp [pySplitAux, List.isEmpty_iff, h, pySplit_nil]
  | cons c r ih =>
    intro cur h
    cases hc : pyIsSpace c
    · rw [show pySplitAux cur (c :: r) = pySplitAux (c :: cur) r from by
        simp [pySplitAux, hc]]
      rw [ih (c :: cur) (by simp)]
      rw [List.takeWhile_cons, List.dropWhile_cons]
      simp [hc]
    · rw [show pySplitAux cur (c :: r) = cur.reverse :: pySplit r from by
        simp [pySplitAux, pySplit, hc, List.isEmpty_iff, h]]
      rw [List.takeWhile_cons, List.dropWhile_cons]
      simp [hc, pySplit_cons_space c r hc]

theorem pySplit_cons_nonspace (c : Char) (r : List Char) (h : pyIsSpace c = false) :
    pySplit (c :: r) = (c :: r.takeWhile (fun d => !pyIsSpace d))
      :: pySplit (r.dropWhile (fun d => !pyIsSpace d)) := by
  rw [show pySplit (c :: r) = pySplitAux [c] r from by simp [pySplit, pySplitAux, h]]
  rw [pySplitAux_ne r [c] (by simp)]
  rfl

/-! `pyJoin` equations -/

theorem pyJoin_cons_of_ne_nil (w : List Char) (ws : List (List Char)) (h : ws ≠ []) :
    pyJoin (w :: ws) = w ++ ' ' :: pyJoin ws := by
  cases ws with
  | nil => exact absurd rfl h
  | cons x xs => rfl

/-- The words produced by `pySplit` are nonempty, whitespace-free, and
drawn from the input. -/
theorem pySplit_words_good :
    ∀ (n : Nat) (l : List Char), l.length ≤ n →
      ∀ w ∈ pySplit l,
        w ≠ [] ∧ (∀ c ∈ w, pyIsSpace c = false) ∧ (∀ c ∈ w, c ∈ l) := by
  intro n
  induction n with
  | zero =>
    intro l hl w hw
    have hnil : l = [] := List.eq_nil_of_length_eq_zero (Nat.le_zero.mp hl)
    subst hnil
    simp [pySplit_nil] at hw
  | succ n ih =>
    intro l hl w hw
    cases l with
    | nil => simp [pySplit_nil] at hw
    | cons c r =>
      cases hc : pyIsSpace c
      · rw [pySplit_cons_nonspace c r hc] at hw
        rcases List.mem_cons.mp hw with rfl | hw
        · refine ⟨by simp, ?_, ?_⟩
          · intro d hd
            rcases List.mem_cons.mp hd with rfl | hd
            · exact hc
            · have := List.mem_takeWhile_imp hd
              simpa using this
          · intro d hd
            rcases List.mem_cons.mp hd with rfl | hd
            · exact List.mem_cons_self d r
            · exact List.mem_cons_of_mem c
                ((List.takeWhile_sublist (fun d => !pyIsSpace d)).subset hd)
        · have hlen : (r.dropWhile (fun d => !pyIsSpace d)).length ≤ n := by
            have h1 := (List.dropWhile_sublist (fun d => !pyIsSpace d) (l := r)).length_le
            simp only [List.length_cons] at hl
            omega
          obtain ⟨h1, h2, h3⟩ := ih _ hlen w hw
          exact ⟨h1, h2, fun d hd => List.mem_cons_of_mem c
            ((List.dropWhile_sublist (fun d => !pyIsSpace d)).subset (h3 d hd))⟩
      · rw [pySplit_cons_space c r hc] at hw
        have hlen : r.length ≤ n := by
          simp only [List.length_cons] at hl
          omega
        obtain ⟨h1, h2, h3⟩ := ih r hlen w hw
        exact ⟨h1, h2, fun d hd => List.mem_cons_of_mem c (h3 d hd)⟩

theorem pySplit_good (l : List Char) :
    ∀ w ∈ pySplit l,
      w ≠ [] ∧ (∀ c ∈ w, pyIsSpace c = false) ∧ (∀ c ∈ w, c ∈ l) :=
  pySplit_words_good l.length l (Nat.le_refl _)

/-- Concatenating the words of `pySplit` recovers the non-whitespace
characters of the input, in order. -/
theorem pySplit_flatten :
    ∀ (n : Nat) (l : List Char), l.length ≤ n →
      (pySplit l).flatten = l.filter (fun c => !pyIsSpace c) := by
  intro n
  induction n with
  | zero =>
    intro l hl
    have hnil : l = [] := List.eq_nil_of_length_eq_zero (Nat.le_zero.mp hl)
    subst hnil
    rfl
  | succ n ih =>
    intro l hl
    cases l with
    | nil => rfl
    | cons c r =>
      cases hc : pyIsSpace c
      · rw [pySplit_cons_nonspace c r hc, List.flatten_cons]
        have hlen : (r.dropWhile (fun d => !pyIsSpace d)).length ≤ n := by
          have h1 := (List.dropWhile_sublist (fun d => !pyIsSpace d) (l := r)).length_le
          simp only [List.length_cons] at hl
          omega
        rw [ih _ hlen]
        rw [List.filter_cons_of_pos (by simp [hc])]
        conv_rhs => rw [← List.takeWhile_append_dropWhile (fun d => !pyIsSpace d) r]
        rw [List.filter_append]
        have htw : (r.takeWhile (fun d => !pyIsSpace d)).filter (fun c => !pyIsSpace c)
            = r.takeWhile (fun d => !pyIsSpace d) :=
          List.filter_eq_self.mpr (fun d hd => by
            have hmem := List.mem_takeWhile_imp hd
            simpa using hmem)
        rw [htw]
        simp
      · rw [pySplit_cons_space c r hc]
        have hlen : r.length ≤ n := by
          simp only [List.length_cons] at hl
          omega
        rw [ih r hlen, List.filter_cons_of_neg (by simp [hc])]

theorem pySplit_flatten_eq (l : List Char) :
    (pySplit l).flatten = l.filter (fun c => !pyIsSpace c) :=
  pySplit_flatten l.length l (Nat.le_refl _)

/-- Splitting the join of nonempty whitespace-free words recovers the
words. -/
theorem pySplit_pyJoin_of_good :
    ∀ (ws : List (List Char)), (∀ w ∈ ws, w ≠ []) →
      (∀ w ∈ ws, ∀ c ∈ w, pyIsSpace c = false) →
      pySplit (pyJoin ws) = ws := by
  intro ws
  induction ws with
  | nil => intro _ _; rfl
  | cons w ws ih =>
    intro hne hsp
    have hwne : w ≠ [] := hne w (List.mem_cons_self w ws)
    cases w with
    | nil => exact absurd rfl hwne
    | cons c w' =>
      have hc : pyIsSpace c = false :=
        hsp _ (List.mem_cons_self _ ws) c (List.mem_cons_self c w')
      have hw' : ∀ d ∈ w', pyIsSpace d = false :=
        fun d hd => hsp _ (List.mem_cons_self _ ws) d (List.mem_cons_of_mem c hd)
      cases ws with
      | nil =>
        show pySplit (c :: w') = [c :: w']
        rw [pySplit_cons_nonspace c w' hc]
        rw [takeWhile_eq_self_of_all _ w' (fun d hd => by simp [hw' d hd])]
        rw [dropWhile_eq_nil_of_all _ w' (fun d hd => by simp [hw' d hd])]
        rfl
      | cons x xs =>
        rw [pyJoin_cons_of_ne_nil _ _ (by simp), List.cons_append]
        rw [pySplit_cons_nonspace c _ hc]
        rw [takeWhile_append_of_all _ w' _ (fun d hd => by simp [hw' d hd])]
        rw [dropWhile_append_of_all _ w' _ (fun d hd => by simp [hw' d hd])]
        rw [List.takeWhile_cons, if_neg (by simp [pyIsSpace])]
        rw [List.dropWhile_cons, if_neg (by simp [pyIsSpace])]
        rw [pySplit_cons_space ' ' _ (by rfl)]
        rw [ih (fun u hu => hne u (List.mem_cons_of_mem _ hu))
          (fun u hu => hsp u (List.mem_cons_of_mem _ hu))]
        simp

/-- Every character of a join of nonempty words is a word character or
the separating space. -/
theorem mem_pyJoin :
    ∀ (ws : List (List Char)) (c : Char), c ∈ pyJoin ws →
      (∃ w ∈ ws, c ∈ w) ∨ c = ' ' := by
  intro ws
  induction ws with
  | nil => intro c hc; simp [pyJoin] at hc
  | cons w ws ih =>
    intro c hc
    cases ws with
    | nil => exact Or.inl ⟨w, List.mem_cons_self w [], hc⟩
    | cons x xs =>
      rw [pyJoin_cons_of_ne_nil _ _ (by simp)] at hc
      rcases List.mem_append.mp hc with h | h
      · exact Or.inl ⟨w, List.mem_cons_self w _, h⟩
      · rcases List.mem_cons.mp h with rfl | h
        · exact Or.inr rfl
        · rcases ih c h with ⟨w', hw', hc'⟩ | rfl
          · exact Or.inl ⟨w', List.mem_cons_of_mem w hw', hc'⟩
          · exact Or.inr rfl

/-! `pyStripChars` lemmas -/

theorem pyStripChars_cons_space (c : Char) (x : List Char) (h : pyIsSpace c = true) :
    pyStripChars (c :: x) = pyStripChars x := by
  simp [pyStripChars, List.dropWhile_cons, h]

theorem pyStripChars_spacefree (w : List Char) (hw : ∀ c ∈ w, pyIsSpace c = false) :
    pyStripChars w = w := by
  rw [pyStripChars, dropWhile_eq_self_of_all pyIsSpace w hw,
    dropWhile_eq_self_of_all pyIsSpace w.reverse
      (fun c hc => hw c (List.mem_reverse.mp hc)),
    List.reverse_reverse]

theorem pyStripChars_nonspace_head (e : Char) (r : List Char) (he : pyIsSpace e = false) :
    pyStripChars (e :: r) = ((e :: r).reverse.dropWhile pyIsSpace).reverse := by
  rw [pyStripChars, List.dropWhile_cons, if_neg (by simp [he])]

theorem pyStripChars_append_single_space (w : List Char)
    (hw : ∀ c ∈ w, pyIsSpace c = false) (hne : w ≠ []) :
    pyStripChars (w ++ [' ']) = w := by
  obtain ⟨c, w', rfl⟩ : ∃ c w', w = c :: w' := by
    cases w with
    | nil => exact absurd rfl hne
    | cons c w' => exact ⟨c, w', rfl⟩
  rw [pyStripChars, List.cons_append, List.dropWhile_cons,
    if_neg (by simp [hw c (List.mem_cons_self c w')])]
  rw [show (c :: (w' ++ [' '])).reverse = ' ' :: (c :: w').reverse from by simp]
  rw [List.dropWhile_cons, if_pos (by decide)]
  rw [dropWhile_eq_self_of_all pyIsSpace _
    (fun d hd => hw d (List.mem_reverse.mp hd))]
  rw [List.reverse_reverse]

theorem pyStripChars_word_space_rest (w y : List Char)
    (hw : ∀ c ∈ w, pyIsSpace c = false) (hne : w ≠ [])
    (hy : ∃ c ∈ y, pyIsSpace c = false) :
    pyStripChars (w ++ ' ' :: y) = w ++ ' ' :: (y.reverse.dropWhile pyIsSpace).reverse := by
  obtain ⟨c, w', rfl⟩ : ∃ c w', w = c :: w' := by
    cases w with
    | nil => exact absurd rfl hne
    | cons c w' => exact ⟨c, w', rfl⟩
  rw [pyStripChars, List.cons_append, List.dropWhile_cons,
    if_neg (by simp [hw c (List.mem_cons_self c w')])]
  rw [show (c :: (w' ++ ' ' :: y)).reverse = y.reverse ++ ' ' :: (c :: w').reverse from by
    simp]
  rw [dropWhile_append_of_ne_nil pyIsSpace y.reverse _
    (dropWhile_ne_nil_of_exists pyIsSpace y.reverse
      (by obtain ⟨d, hd, hpd⟩ := hy; exact ⟨d, List.mem_reverse.mpr hd, hpd⟩))]
  rw [List.reverse_append, List.reverse_cons, List.reverse_reverse, List.append_assoc]
  simp

/-- Stripping after collapsing whitespace coincides with rejoining the
whitespace-separated words: both normalise every whitespace run to a
single interior space. -/
theorem strip_collapse_aux :
    ∀ (n : Nat) (m : List Char), m.length ≤ n →
      pyStripChars (collapseWs m) = pyJoin (pySplit m) := by
  intro n
  induction n with
  | zero =>
    intro m hm
    have hnil : m = [] := List.eq_nil_of_length_eq_zero (Nat.le_zero.mp hm)
    subst hnil
    rfl
  | succ n ih =>
    intro m hm
    cases m with
    | nil => rfl
    | cons c rest =>
      cases hc : pyIsSpace c
      · -- c is not whitespace: the word c :: takeWhile … passes through
        have hw_sp : ∀ d ∈ c :: rest.takeWhile (fun d => !pyIsSpace d),
            pyIsSpace d = false := by
          intro d hd
          rcases List.mem_cons.mp hd with rfl | hd
          · exact hc
          · have hmem := List.mem_takeWhile_imp hd
            simpa using hmem
        have hcol : collapseWs (c :: rest)
            = (c :: rest.takeWhile (fun d => !pyIsSpace d))
                ++ collapseWs (rest.dropWhile (fun d => !pyIsSpace d)) := by
          conv_lhs => rw [show (c :: rest)
            = (c :: rest.takeWhile (fun d => !pyIsSpace d))
                ++ rest.dropWhile (fun d => !pyIsSpace d) from by
                  rw [List.cons_append, List.takeWhile_append_dropWhile]]
          exact collapseWs_append_spacefree _ _ hw_sp
        rw [hcol, pySplit_cons_nonspace c rest hc]
        have hdwlen : (rest.dropWhile (fun d => !pyIsSpace d)).length ≤ n := by
          have h1 := (List.dropWhile_sublist (fun d => !pyIsSpace d) (l := rest)).length_le
          simp only [List.length_cons] at hm
          omega
        obtain hdwe | ⟨d, dw₂, hdwe⟩ :
            rest.dropWhile (fun d => !pyIsSpace d) = []
              ∨ ∃ d dw₂, rest.dropWhile (fun d => !pyIsSpace d) = d :: dw₂ := by
          cases rest.dropWhile (fun d => !pyIsSpace d) with
          | nil => exact Or.inl rfl
          | cons d dw₂ => exact Or.inr ⟨d, dw₂, rfl⟩
        · rw [hdwe]
          rw [show collapseWs [] = [] from rfl, List.append_nil, pySplit_nil]
          exact pyStripChars_spacefree _ hw_sp
        · have hd : pyIsSpace d = true := by
            have h0 := dropWhile_head_false (fun d => !pyIsSpace d) rest d dw₂ hdwe
            simpa using h0
          rw [hdwe]
          rw [collapseWs_cons_space d dw₂ hd]
          have hsplit_dw : pySplit (d :: dw₂) = pySplit (dw₂.dropWhile pyIsSpace) := by
            rw [pySplit_cons_space d dw₂ hd, pySplit_dropWhile]
          obtain hm2 | ⟨e, m3, hm2⟩ :
              dw₂.dropWhile pyIsSpace = []
                ∨ ∃ e m3, dw₂.dropWhile pyIsSpace = e :: m3 := by
            cases dw₂.dropWhile pyIsSpace with
            | nil => exact Or.inl rfl
            | cons e m3 => exact Or.inr ⟨e, m3, rfl⟩
          · rw [hm2]
            rw [show collapseWs [] = [] from rfl]
            rw [hsplit_dw, hm2, pySplit_nil]
            exact pyStripChars_append_single_space _ hw_sp (by simp)
          · have he : pyIsSpace e = false := dropWhile_head_false pyIsSpace dw₂ e m3 hm2
            rw [hm2, collapseWs_cons_nonspace e m3 he]
            -- the tail words are nonempty, so the join keeps the separator
            have hIH : pyStripChars (collapseWs (d :: dw₂)) = pyJoin (pySplit (d :: dw₂)) := by
              apply ih
              have h1 := (List.dropWhile_sublist (fun d => !pyIsSpace d) (l := rest)).length_le
              rw [hdwe] at h1
              simp only [List.length_cons] at hm h1 ⊢
              omega
            rw [collapseWs_cons_space d dw₂ hd, hm2,
              collapseWs_cons_nonspace e m3 he,
              pyStripChars_cons_space ' ' _ (by decide),
              pyStripChars_nonspace_head e _ he] at hIH
            have hsp_ne : pySplit (d :: dw₂) ≠ [] := by
              rw [hsplit_dw, hm2, pySplit_cons_nonspace e m3 he]
              simp
            rw [pyStripChars_word_space_rest _ (e :: collapseWs m3) hw_sp (by simp)
              ⟨e, List.mem_cons_self e _, he⟩]
            rw [pyJoin_cons_of_ne_nil _ _ hsp_ne]
            rw [← hIH]
      · -- c is whitespace: both sides drop it
        rw [collapseWs_cons_space c rest hc,
          pyStripChars_cons_space ' ' _ (by decide)]
        have hlen : (rest.dropWhile pyIsSpace).length ≤ n := by
          have h1 := (List.dropWhile_sublist pyIsSpace (l := rest)).length_le
          simp only [List.length_cons] at hm
          omega
        rw [ih _ hlen, pySplit_dropWhile rest, pySplit_cons_space c rest hc]

theorem strip_collapse_eq (m : List Char) :
    pyStripChars (collapseWs m) = pyJoin (pySplit m) :=
  strip_collapse_aux m.length m (Nat.le_refl _)

/-! ### The normal form of `clean_text` -/

/-- `clean_text` computes the whitespace normal form of
`filter allowedChar` applied to the whitespace normal form of the
input. -/
theorem cleanChars_eq_norm (l : List Char) :
    cleanChars l = pyJoin (pySplit ((pyJoin (pySplit l)).filter allowedChar)) := by
  show pyStripChars (collapseWs ((pyJoin (pySplit l)).filter allowedChar)) = _
  exact strip_collapse_eq _

theorem mem_norm_allowed (u : List Char) (hu : ∀ c ∈ u, allowedChar c = true) :
    ∀ c ∈ pyJoin (pySplit u), allowedChar c = true := by
  intro c hc
  rcases mem_pyJoin _ c hc with ⟨w, hw, hcw⟩ | rfl
  · exact hu c ((pySplit_good u w hw).2.2 c hcw)
  · decide

theorem norm_filter_allowed_self (u : List Char) (hu : ∀ c ∈ u, allowedChar c = true) :
    (pyJoin (pySplit u)).filter allowedChar = pyJoin (pySplit u) :=
  List.filter_eq_self.mpr (fun c hc => mem_norm_allowed u hu c hc)

/-- The whitespace normal form is a fixed point of re-splitting. -/
theorem norm_idem (u : List Char) :
    pySplit (pyJoin (pySplit u)) = pySplit u :=
  pySplit_pyJoin_of_good (pySplit u) (fun w hw => (pySplit_good u w hw).1)
    (fun w hw => (pySplit_good u w hw).2.1)

/-- C5: `clean_text` is idempotent. -/
theorem claim_C5_clean_text_idempotent (s : String) :
    clean_text (clean_text s) = clean_text s := by
  have key : ∀ l : List Char, cleanChars (cleanChars l) = cleanChars l := by
    intro l
    have hu : ∀ c ∈ (pyJoin (pySplit l)).filter allowedChar, allowedChar c = true :=
      fun c hc => (List.mem_filter.mp hc).2
    conv_lhs => rw [cleanChars_eq_norm (cleanChars l), cleanChars_eq_norm l]
    rw [norm_idem, norm_filter_allowed_self _ hu, norm_idem]
    exact (cleanChars_eq_norm l).symm
  show String.mk (cleanChars (String.mk (cleanChars s.data)).data)
    = String.mk (cleanChars s.data)
  exact congrArg String.mk (key s.data)

/-! ### The output shape of `clean_text` (C6) -/

theorem chain'_spacefree (w : List Char) (hw : ∀ c ∈ w, pyIsSpace c = false) :
    List.Chain' (fun a b => ¬(pyIsSpace a = true ∧ pyIsSpace b = true)) w := by
  induction w with
  | nil => simp
  | cons c r ih =>
    rw [List.chain'_cons']
    refine ⟨?_, ih (fun d hd => hw d (List.mem_cons_of_mem c hd))⟩
    intro b _ hab
    rw [hw c (List.mem_cons_self c r)] at hab
    simp at hab

theorem head?_pyJoin_of_ne_nil (x : List Char) (xs : List (List Char)) (hx : x ≠ []) :
    (pyJoin (x :: xs)).head? = x.head? := by
  cases xs with
  | nil => rfl
  | cons y ys =>
    rw [pyJoin_cons_of_ne_nil _ _ (by simp), List.head?_append]
    cases x with
    | nil => exact absurd rfl hx
    | cons c t => rfl

theorem chain'_pyJoin (ws : List (List Char)) (hne : ∀ w ∈ ws, w ≠ [])
    (hsp : ∀ w ∈ ws, ∀ c ∈ w, pyIsSpace c = false) :
    List.Chain' (fun a b => ¬(pyIsSpace a = true ∧ pyIsSpace b = true)) (pyJoin ws) := by
  induction ws with
  | nil => simp [pyJoin]
  | cons w ws ih =>
    cases ws with
    | nil => exact chain'_spacefree w (hsp w (List.mem_cons_self w _))
    | cons x xs =>
      rw [pyJoin_cons_of_ne_nil _ _ (by simp)]
      rw [List.chain'_append]
      refine ⟨chain'_spacefree w (hsp w (List.mem_cons_self w _)), ?_, ?_⟩
      · rw [List.chain'_cons']
        refine ⟨?_, ih (fun u hu => hne u (List.mem_cons_of_mem w hu))
          (fun u hu => hsp u (List.mem_cons_of_mem w hu))⟩
        intro b hb hab
        rw [head?_pyJoin_of_ne_nil x xs
          (hne x (List.mem_cons_of_mem w (List.mem_cons_self x xs)))] at hb
        have hbx : b ∈ x := List.mem_of_mem_head? hb
        rw [hsp x (List.mem_cons_of_mem w (List.mem_cons_self x xs)) b hbx] at hab
        simp at hab
      · intro a ha b _ hab
        have haw : a ∈ w := List.mem_of_getLast?_eq_some ha
        rw [hsp w (List.mem_cons_self w _) a haw] at hab
        simp at hab

theorem filter_nonspace_pyJoin (ws : List (List Char))
    (hsp : ∀ w ∈ ws, ∀ c ∈ w, pyIsSpace c = false) :
    (pyJoin ws).filter (fun c => !pyIsSpace c) = ws.flatten := by
  induction ws with
  | nil => rfl
  | cons w ws ih =>
    cases ws with
    | nil =>
      show w.filter (fun c => !pyIsSpace c) = w ++ [].flatten
      rw [List.filter_eq_self.mpr
        (fun c hc => by simp [hsp w (List.mem_cons_self w _) c hc])]
      simp
    | cons x xs =>
      rw [pyJoin_cons_of_ne_nil _ _ (by simp), List.filter_append,
        List.filter_cons_of_neg (by simp [pyIsSpace]), List.flatten_cons]
      rw [List.filter_eq_self.mpr
        (fun c hc => by simp [hsp w (List.mem_cons_self w _) c hc])]
      rw [ih (fun u hu => hsp u (List.mem_cons_of_mem w hu))]

/-- The whitespace normal form keeps exactly the non-whitespace
characters. -/
theorem filter_nonspace_norm (m : List Char) :
    (pyJoin (pySplit m)).filter (fun c => !pyIsSpace c)
      = m.filter (fun c => !pyIsSpace c) := by
  rw [filter_nonspace_pyJoin (pySplit m) (fun w hw => (pySplit_good m w hw).2.1)]
  exact pySplit_flatten_eq m

/-- C6: `clean_text` returns text whose characters are all in the
allow-list, whose whitespace is normalised to single plain spaces with
no two adjacent whitespace characters (runs collapsed), and whose
non-whitespace characters are exactly the input's allowed non-whitespace
characters in order; it is a pure function of the input string. -/
theorem claim_C6_clean_text_output_shape (s : String) :
    (∀ c ∈ (clean_text s).data, allowedChar c = true)
    ∧ (∀ c ∈ (clean_text s).data, pyIsSpace c = true → c = ' ')
    ∧ List.Chain' (fun a b => ¬(pyIsSpace a = true ∧ pyIsSpace b = true))
        (clean_text s).data
    ∧ (clean_text s).data.filter (fun c => !pyIsSpace c)
        = s.data.filter (fun c => allowedChar c && !pyIsSpace c) := by
  have hu : ∀ c ∈ (pyJoin (pySplit s.data)).filter allowedChar, allowedChar c = true :=
    fun c hc => (List.mem_filter.mp hc).2
  have hshow : (clean_text s).data
      = pyJoin (pySplit ((pyJoin (pySplit s.data)).filter allowedChar)) :=
    cleanChars_eq_norm s.data
  refine ⟨?_, ?_, ?_, ?_⟩
  · rw [hshow]
    exact mem_norm_allowed _ hu
  · rw [hshow]
    intro c hc hsp
    rcases mem_pyJoin _ c hc with ⟨w, hw, hcw⟩ | rfl
    · rw [(pySplit_good _ w hw).2.1 c hcw] at hsp
      exact absurd hsp (by simp)
    · rfl
  · rw [hshow]
    exact chain'_pyJoin _ (fun w hw => (pySplit_good _ w hw).1)
      (fun w hw => (pySplit_good _ w hw).2.1)
  · rw [hshow, filter_nonspace_norm, List.filter_filter]
    have hcomm : ((pyJoin (pySplit s.data)).filter
        (fun a => (!pyIsSpace a) && allowedChar a))
        = (pyJoin (pySplit s.data)).filter (fun a => allowedChar a && !pyIsSpace a) :=
      List.filter_congr (fun a _ => Bool.and_comm _ _)
    rw [hcomm]
    have hq : ∀ y : List Char,
        y.filter (fun a => allowedChar a && !pyIsSpace a)
          = (y.filter (fun a => !pyIsSpace a)).filter
              (fun a => allowedChar a && !pyIsSpace a) := by
      intro y
      rw [List.filter_filter]
      exact List.filter_congr (fun a _ => by
        cases h1 : allowedChar a <;> cases h2 : pyIsSpace a <;> simp [h1, h2])
    rw [hq, filter_nonspace_norm, ← hq]

/-- Witness for C6 at a concrete noisy input. -/
theorem claim_C6_clean_text_output_shape_witness :
    (clean_text "  a  b@! c ").data.filter (fun c => !pyIsSpace c)
      = "  a  b@! c ".data.filter (fun c => allowedChar c && !pyIsSpace c) :=
  (claim_C6_clean_text_output_shape "  a  b@! c ").2.2.2

example : categoryOf "being" = .linking := by decide
example : categoryOf "SLEEPING" = .irregular := by decide
example : categoryOf "sleeping" = .action := by decide
example : categoryOf "dreams" = .irregular := by decide
example : categoryOf "walked" = .regular := by decide
example : categoryOf "ed" = .irregular := by decide
example : categoryOf "can" = .helping := by decide
example : clean_text "  Hello,   world@# " = "Hello, world" := by decide
example : pySplit " a  b ".data = [['a'], ['b']] := by decide

end TextVerbExtractor
